import Mathlib

/-!
Verification of the Travelling Tournament Problem Monte Carlo experiment engine.

This file gives a shallow embedding of the schedule-generation and
violation-counting core of the program (`main.py`) and proves properties
about it.

Modelling conventions:
* Python ints are `Nat` (all quantities in scope are non-negative) except the
  streak threshold `MAXSTREAK`, which is modelled as `Int` so that negative
  thresholds, which Python accepts, are representable.
* The process-global random source is made explicit: `randomRound` takes the
  shuffled team list (the result of `random.shuffle`) as an argument, and the
  experiment loop takes the list of sampled tournaments as an argument.
* Python dictionaries that are used as histograms are modelled as association
  lists (`List (Nat × Nat)`): `increment` updates the first binding of the
  key in place or appends a fresh binding at the end, exactly as
  `dic[key] = dic.get(key, 0) + inc` behaves on a dict with unique keys.
* The per-team streak dictionary `{team: (0, 0) for team in range(NTEAMS)}`
  is modelled as the total function `fun _ => (0, 0)`; the program only ever
  looks up teams that occur in games, which for in-range tournaments are
  exactly the keys Python initialises.
-/

namespace TTP

/-- A game is an ordered (host, guest) pair of team identifiers. -/
abbrev Game := Nat × Nat

/-- A round is the list of games played simultaneously. -/
abbrev Round := List Game

/-- A tournament is an ordered sequence of rounds. -/
abbrev Tournament := List Round

/-- Source `flatten`: concatenates one level of nesting. -/
def flatten {α : Type} (lst : List (List α)) : List α :=
  lst.flatten

/-- Source `increment(dic, key, inc)`: `dic[key] = dic.get(key, 0) + inc` on an
association-list model of a Python dict (keys are unique by construction, new
keys are appended at the end, matching dict insertion order). -/
def increment (dic : List (Nat × Nat)) (key : Nat) (inc : Nat) : List (Nat × Nat) :=
  match dic with
  | [] => [(key, inc)]
  | (k, v) :: rest => if k = key then (k, v + inc) :: rest else (k, v) :: increment rest key inc

/-- Source `Experiment.gameIdToTeamIds`: `host = gid // (NTEAMS-1)`,
`guest = gid % (NTEAMS-1)`, and `guest += 1` when `guest >= host`. -/
def gameIdToTeamIds (NTEAMS : Nat) (gid : Nat) : Nat × Nat :=
  let host := gid / (NTEAMS - 1)
  let guest := gid % (NTEAMS - 1)
  if guest ≥ host then (host, guest + 1) else (host, guest)

/-- Source `Experiment.teamIdsToGameId`: `gid = host*(NTEAMS-1) + guest`,
minus one when `guest > host`. -/
def teamIdsToGameId (NTEAMS : Nat) (host : Nat) (guest : Nat) : Nat :=
  let gid := host * (NTEAMS - 1) + guest
  if guest > host then gid - 1 else gid

/-- Source `itertools.batched(lst, 2)` specialised to pairs: consecutive
two-element chunks of the list.  (For an odd-length list Python would produce
a trailing 1-tuple and the call `teamIdsToGameId(*t)` would raise; the odd
tail is out of scope here, all uses have even length.) -/
def batched2 : List Nat → List (Nat × Nat)
  | a :: b :: rest => (a, b) :: batched2 rest
  | _ => []

/-- Source `Experiment.randomRound`, with the shuffled team list made an
explicit argument: pair up the shuffled teams, encode each pair, and sort the
resulting game ids (`sorted` in Python; insertion sort is an equivalent
stable sort). -/
def randomRound (NTEAMS : Nat) (shuffledTeamIds : List Nat) : List Nat :=
  List.insertionSort (· ≤ ·)
    ((batched2 shuffledTeamIds).map (fun t => teamIdsToGameId NTEAMS t.1 t.2))

/-- One round of source `Experiment.randomTournament`: the game ids of
`randomRound` decoded back to (host, guest) pairs. -/
def roundGames (NTEAMS : Nat) (shuffledTeamIds : List Nat) : Round :=
  (randomRound NTEAMS shuffledTeamIds).map (gameIdToTeamIds NTEAMS)

/-- Source `Experiment.randomTournament`, with the per-round shuffles made
explicit: one decoded round per shuffle. -/
def randomTournament (NTEAMS : Nat) (shuffles : List (List Nat)) : Tournament :=
  shuffles.map (roundGames NTEAMS)

/-- Source `Experiment.countDoubleRoundRobinViolations`: count all games,
then for every unordered pair `host < guest` penalise the deviation of each
directed multiplicity from 1. -/
def countDoubleRoundRobinViolations (NTEAMS : Nat) (tournament : Tournament) : Nat :=
  let counter := flatten tournament
  ∑ host ∈ Finset.range NTEAMS, ∑ guest ∈ Finset.Ico (host + 1) NTEAMS,
    ((1 - (counter.count (host, guest) : Int)).natAbs +
      (1 - (counter.count (guest, host) : Int)).natAbs)

/-- Source `Experiment.countNoRepeatViolations`.  The loop bound is the
experiment's `NROUNDS` field, not the length of the argument, so it is kept
as a separate parameter; list indexing out of range is modelled by `getD`
with an empty default (all in-scope uses index within range). -/
def countNoRepeatViolations (NROUNDS : Nat) (tournament : Tournament) : Nat :=
  ∑ nextRoundNr ∈ Finset.Ico 1 NROUNDS,
    (let nextRound := tournament.getD nextRoundNr []
     let currentRound := tournament.getD (nextRoundNr - 1) []
     (currentRound.map (fun g =>
        (if (g.1, g.2) ∈ nextRound then 1 else 0) +
          (if (g.2, g.1) ∈ nextRound then 1 else 0))).sum)

/-- One game step of source `Experiment.countMaxStreakViolations`: bump the
host's home streak (checking the threshold), reset the host's away streak,
then the same for the guest with roles swapped. -/
def streakGameStep (MAXSTREAK : Int) (acc : (Nat → Nat × Nat) × Nat) (g : Game) :
    (Nat → Nat × Nat) × Nat :=
  let streak := acc.1
  let violations := acc.2
  let home := (streak g.1).1
  let violations := if ((home + 1 : Nat) : Int) > MAXSTREAK then violations + 1 else violations
  let streak := Function.update streak g.1 (home + 1, 0)
  let away := (streak g.2).2
  let violations := if ((away + 1 : Nat) : Int) > MAXSTREAK then violations + 1 else violations
  let streak := Function.update streak g.2 (0, away + 1)
  (streak, violations)

/-- Source `Experiment.countMaxStreakViolations`: scan rounds in order,
games within a round in order, threading the per-team streak state. -/
def countMaxStreakViolations (MAXSTREAK : Int) (tournament : Tournament) : Nat :=
  (tournament.foldl (fun acc round => round.foldl (streakGameStep MAXSTREAK) acc)
    ((fun _ => (0, 0)), 0)).2

/-- A histogram: violation count ↦ frequency, as maintained by `increment`. -/
abbrev Hist := List (Nat × Nat)

/-- Total frequency mass of a histogram. -/
def histSum (h : Hist) : Nat :=
  (h.map (fun kv => kv.2)).sum

/-- One repetition of the loop body of source `Experiment.execute`: count the
three violation statistics of one sampled tournament and record each into its
histogram. -/
def executeStep (NTEAMS : Nat) (NROUNDS : Nat) (MAXSTREAK : Int)
    (acc : Hist × Hist × Hist) (tournament : Tournament) : Hist × Hist × Hist :=
  (increment acc.1 (countMaxStreakViolations MAXSTREAK tournament) 1,
   increment acc.2.1 (countDoubleRoundRobinViolations NTEAMS tournament) 1,
   increment acc.2.2 (countNoRepeatViolations NROUNDS tournament) 1)

/-- Source `Experiment.execute`, with the sampled tournaments made explicit:
starting from the three empty histograms of `Experiment.__init__`, fold the
loop body over the repetitions.  `__init__` performs no validation of its
arguments, and `execute` has no other effect on the histograms. -/
def executeHists (NTEAMS : Nat) (NROUNDS : Nat) (MAXSTREAK : Int)
    (tournaments : List Tournament) : Hist × Hist × Hist :=
  tournaments.foldl (executeStep NTEAMS NROUNDS MAXSTREAK) ([], [], [])

/-! ### Game codec lemmas -/

lemma gameIdToTeamIds_teamIdsToGameId (NTEAMS host guest : Nat) (h2 : 2 ≤ NTEAMS)
    (hh : host < NTEAMS) (hg : guest < NTEAMS) (hne : host ≠ guest) :
    gameIdToTeamIds NTEAMS (teamIdsToGameId NTEAMS host guest) = (host, guest) := by
  simp only [gameIdToTeamIds, teamIdsToGameId]
  set M := NTEAMS - 1 with hMdef
  have hM : 0 < M := by omega
  rcases Nat.lt_or_ge guest host with hlt | hge
  · have hgop : ¬ guest > host := by omega
    rw [if_neg hgop]
    have hgM : guest < M := by omega
    have e1 : (host * M + guest) / M = host := by
      rw [Nat.mul_comm host M, Nat.mul_add_div hM, Nat.div_eq_of_lt hgM]
      omega
    have e2 : (host * M + guest) % M = guest := by
      rw [Nat.mul_comm host M, Nat.mul_add_mod]
      exact Nat.mod_eq_of_lt hgM
    rw [e1, e2, if_neg (by omega)]
  · have hgt : guest > host := by omega
    rw [if_pos hgt]
    have hg1 : 1 ≤ guest := by omega
    have hsub : host * M + guest - 1 = host * M + (guest - 1) := Nat.add_sub_assoc hg1 _
    have hgM : guest - 1 < M := by omega
    have e1 : (host * M + (guest - 1)) / M = host := by
      rw [Nat.mul_comm host M, Nat.mul_add_div hM, Nat.div_eq_of_lt hgM]
      omega
    have e2 : (host * M + (guest - 1)) % M = guest - 1 := by
      rw [Nat.mul_comm host M, Nat.mul_add_mod]
      exact Nat.mod_eq_of_lt hgM
    rw [hsub, e1, e2, if_pos (by omega)]
    have : guest - 1 + 1 = guest := by omega
    rw [this]

lemma teamIdsToGameId_lt (NTEAMS host guest : Nat) (h2 : 2 ≤ NTEAMS)
    (hh : host < NTEAMS) (hg : guest < NTEAMS) (hne : host ≠ guest) :
    teamIdsToGameId NTEAMS host guest < NTEAMS * (NTEAMS - 1) := by
  simp only [teamIdsToGameId]
  have hup : (host + 1) * (NTEAMS - 1) ≤ NTEAMS * (NTEAMS - 1) :=
    Nat.mul_le_mul_right _ hh
  have hexp : (host + 1) * (NTEAMS - 1) = host * (NTEAMS - 1) + (NTEAMS - 1) := by ring
  split <;> omega

lemma teamIdsToGameId_gameIdToTeamIds (NTEAMS gid : Nat) (h2 : 2 ≤ NTEAMS)
    (hgid : gid < NTEAMS * (NTEAMS - 1)) :
    teamIdsToGameId NTEAMS (gameIdToTeamIds NTEAMS gid).1 (gameIdToTeamIds NTEAMS gid).2
      = gid := by
  set M := NTEAMS - 1 with hMdef
  have hM : 0 < M := by omega
  have hmod : M * (gid / M) + gid % M = gid := Nat.div_add_mod gid M
  have hgrm : gid % M < M := Nat.mod_lt _ hM
  set host := gid / M with hhostdef
  set grm := gid % M with hgrmdef
  rcases Nat.lt_or_ge grm host with hlt | hge
  · have hdec : gameIdToTeamIds NTEAMS gid = (host, grm) := by
      simp only [gameIdToTeamIds, ← hMdef, ← hhostdef, ← hgrmdef]
      rw [if_neg (by omega)]
    rw [hdec]
    simp only [teamIdsToGameId]
    rw [if_neg (by omega), Nat.mul_comm host M]
    exact hmod
  · have hdec : gameIdToTeamIds NTEAMS gid = (host, grm + 1) := by
      simp only [gameIdToTeamIds, ← hMdef, ← hhostdef, ← hgrmdef]
      rw [if_pos (by omega)]
    rw [hdec]
    simp only [teamIdsToGameId]
    rw [if_pos (by omega), Nat.mul_comm host M]
    omega

lemma gameIdToTeamIds_valid (NTEAMS gid : Nat) (h2 : 2 ≤ NTEAMS)
    (hgid : gid < NTEAMS * (NTEAMS - 1)) :
    (gameIdToTeamIds NTEAMS gid).1 < NTEAMS ∧ (gameIdToTeamIds NTEAMS gid).2 < NTEAMS ∧
      (gameIdToTeamIds NTEAMS gid).1 ≠ (gameIdToTeamIds NTEAMS gid).2 := by
  simp only [gameIdToTeamIds]
  set M := NTEAMS - 1 with hMdef
  have hM : 0 < M := by omega
  have hgrm : gid % M < M := Nat.mod_lt _ hM
  have hhost : gid / M < NTEAMS := by
    rw [Nat.div_lt_iff_lt_mul hM]
    exact hgid
  split <;> simp only <;> omega

/-- C1: for every even team count `NTEAMS ≥ 2` the codec is a bijection
between ordered host≠guest pairs in `[0, NTEAMS)` and game ids in
`[0, NTEAMS·(NTEAMS−1))`: encode then decode is the identity and the id is in
range; decode then encode is the identity and the decoded pair is a valid
host≠guest pair; and encoding is collision-free. -/
theorem teamIds_gameId_bijection (NTEAMS : Nat) (h2 : 2 ≤ NTEAMS) (hEven : Even NTEAMS) :
    (∀ host guest, host < NTEAMS → guest < NTEAMS → host ≠ guest →
      gameIdToTeamIds NTEAMS (teamIdsToGameId NTEAMS host guest) = (host, guest) ∧
        teamIdsToGameId NTEAMS host guest < NTEAMS * (NTEAMS - 1)) ∧
    (∀ gid, gid < NTEAMS * (NTEAMS - 1) →
      teamIdsToGameId NTEAMS (gameIdToTeamIds NTEAMS gid).1 (gameIdToTeamIds NTEAMS gid).2
          = gid ∧
        (gameIdToTeamIds NTEAMS gid).1 < NTEAMS ∧ (gameIdToTeamIds NTEAMS gid).2 < NTEAMS ∧
        (gameIdToTeamIds NTEAMS gid).1 ≠ (gameIdToTeamIds NTEAMS gid).2) ∧
    (∀ host guest host' guest', host < NTEAMS → guest < NTEAMS → host ≠ guest →
      host' < NTEAMS → guest' < NTEAMS → host' ≠ guest' →
      teamIdsToGameId NTEAMS host guest = teamIdsToGameId NTEAMS host' guest' →
      host = host' ∧ guest = guest') := by
  refine ⟨fun host guest hh hg hne => ⟨?_, ?_⟩, fun gid hgid => ⟨?_, ?_⟩, ?_⟩
  · exact gameIdToTeamIds_teamIdsToGameId NTEAMS host guest h2 hh hg hne
  · exact teamIdsToGameId_lt NTEAMS host guest h2 hh hg hne
  · exact teamIdsToGameId_gameIdToTeamIds NTEAMS gid h2 hgid
  · exact gameIdToTeamIds_valid NTEAMS gid h2 hgid
  · intro host guest host' guest' hh hg hne hh' hg' hne' heq
    have h1 := gameIdToTeamIds_teamIdsToGameId NTEAMS host guest h2 hh hg hne
    have h2' := gameIdToTeamIds_teamIdsToGameId NTEAMS host' guest' h2 hh' hg' hne'
    rw [heq] at h1
    rw [h1] at h2'
    exact ⟨(Prod.mk.injEq _ _ _ _).mp h2' |>.1, (Prod.mk.injEq _ _ _ _).mp h2' |>.2⟩

/-- C1 witness: the bijection theorem instantiated at the concrete team
count 4. -/
theorem teamIds_gameId_bijection_witness :
    (2 ≤ 4 ∧ Even 4) ∧
    ((∀ host guest, host < 4 → guest < 4 → host ≠ guest →
      gameIdToTeamIds 4 (teamIdsToGameId 4 host guest) = (host, guest) ∧
        teamIdsToGameId 4 host guest < 4 * (4 - 1)) ∧
    (∀ gid, gid < 4 * (4 - 1) →
      teamIdsToGameId 4 (gameIdToTeamIds 4 gid).1 (gameIdToTeamIds 4 gid).2 = gid ∧
        (gameIdToTeamIds 4 gid).1 < 4 ∧ (gameIdToTeamIds 4 gid).2 < 4 ∧
        (gameIdToTeamIds 4 gid).1 ≠ (gameIdToTeamIds 4 gid).2) ∧
    (∀ host guest host' guest', host < 4 → guest < 4 → host ≠ guest →
      host' < 4 → guest' < 4 → host' ≠ guest' →
      teamIdsToGameId 4 host guest = teamIdsToGameId 4 host' guest' →
      host = host' ∧ guest = guest')) :=
  ⟨⟨by decide, by decide⟩, teamIds_gameId_bijection 4 (by decide) (by decide)⟩

/-! ### The encode/decode round-trip in round generation (C8) -/

/-- C8 counterexample: there is no even `NTEAMS` and drawn pair `(a, b)` for
which the encode/decode round-trip used by `randomRound`/`randomTournament`
changes the pair: decoding the encoded pair always returns `(a, b)` itself,
so the round-trip never relabels host and guest. -/
theorem roundtrip_normalization_counterexample :
    ¬ ∃ NTEAMS a b : Nat, Even NTEAMS ∧ 2 ≤ NTEAMS ∧ a < NTEAMS ∧ b < NTEAMS ∧ a ≠ b ∧
      gameIdToTeamIds NTEAMS (teamIdsToGameId NTEAMS a b) ≠ (a, b) := by
  rintro ⟨N, a, b, _hE, h2, ha, hb, hab, hne⟩
  exact hne (gameIdToTeamIds_teamIdsToGameId N a b h2 ha hb hab)

/-- C8 (amended): the encode/decode round-trip preserves the draw order: for
every even `NTEAMS` and every drawn pair `(a, b)` of distinct teams, the
decoded game is `(a, b)` itself.  Host/guest labelling therefore comes
entirely from the order of the shuffled permutation, and the round-trip
injects no additional home/away randomness. -/
theorem roundtrip_preserves_draw_order (NTEAMS a b : Nat) (hEven : Even NTEAMS)
    (h2 : 2 ≤ NTEAMS) (ha : a < NTEAMS) (hb : b < NTEAMS) (hab : a ≠ b) :
    gameIdToTeamIds NTEAMS (teamIdsToGameId NTEAMS a b) = (a, b) :=
  gameIdToTeamIds_teamIdsToGameId NTEAMS a b h2 ha hb hab

/-- C8 witness: the amended round-trip statement at `NTEAMS = 4`,
pair `(1, 0)`. -/
theorem roundtrip_preserves_draw_order_witness :
    (Even 4 ∧ 2 ≤ 4 ∧ 1 < 4 ∧ 0 < 4 ∧ (1 : Nat) ≠ 0) ∧
      gameIdToTeamIds 4 (teamIdsToGameId 4 1 0) = (1, 0) :=
  ⟨by decide,
    roundtrip_preserves_draw_order 4 1 0 (by decide) (by decide) (by decide) (by decide)
      (by decide)⟩

/-! ### Sortedness of generated rounds (C10) -/

/-- C10: every round returned by `randomRound` is sorted in nondecreasing
order of game identifier, for every even team count and every permutation
drawn by the shuffle; the position of a game in a round therefore carries no
information about the order its pair was drawn in. -/
theorem randomRound_sorted (NTEAMS : Nat) (perm : List Nat) (hEven : Even NTEAMS)
    (hperm : perm.Perm (List.range NTEAMS)) :
    List.Sorted (· ≤ ·) (randomRound NTEAMS perm) :=
  List.sorted_insertionSort _ _

lemma perm1032 : [1, 0, 3, 2].Perm (List.range 4) := by
  have h : List.range 4 = [0, 1, 2, 3] := rfl
  rw [h]
  exact (List.Perm.swap 0 1 [3, 2]).trans (((List.Perm.swap 2 3 []).cons 1).cons 0)

/-- C10 witness: the sortedness theorem at team count 4 with the concrete
shuffle `[1, 0, 3, 2]`. -/
theorem randomRound_sorted_witness :
    (Even 4 ∧ [1, 0, 3, 2].Perm (List.range 4)) ∧
      List.Sorted (· ≤ ·) (randomRound 4 [1, 0, 3, 2]) :=
  ⟨⟨by decide, perm1032⟩, randomRound_sorted 4 [1, 0, 3, 2] (by decide) perm1032⟩

/-! ### Histogram accumulation (C3, C6) -/

lemma histSum_increment (dic : List (Nat × Nat)) (key inc : Nat) :
    histSum (increment dic key inc) = histSum dic + inc := by
  induction dic with
  | nil => simp [increment, histSum]
  | cons kv rest ih =>
    obtain ⟨k, v⟩ := kv
    by_cases h : k = key
    · simp [increment, h, histSum]
      omega
    · simp only [increment, if_neg h, histSum, List.map_cons, List.sum_cons]
      simp only [histSum] at ih
      omega

lemma executeHists_foldl_histSum (NTEAMS NROUNDS : Nat) (MAXSTREAK : Int) :
    ∀ (tournaments : List Tournament) (acc : Hist × Hist × Hist),
      histSum (tournaments.foldl (executeStep NTEAMS NROUNDS MAXSTREAK) acc).1
          = histSum acc.1 + tournaments.length ∧
        histSum (tournaments.foldl (executeStep NTEAMS NROUNDS MAXSTREAK) acc).2.1
          = histSum acc.2.1 + tournaments.length ∧
        histSum (tournaments.foldl (executeStep NTEAMS NROUNDS MAXSTREAK) acc).2.2
          = histSum acc.2.2 + tournaments.length := by
  intro tournaments
  induction tournaments with
  | nil => intro acc; simp
  | cons t rest ih =>
    intro acc
    simp only [List.foldl_cons, List.length_cons]
    obtain ⟨ha, hb, hc⟩ := ih (executeStep NTEAMS NROUNDS MAXSTREAK acc t)
    rw [ha, hb, hc]
    simp only [executeStep, histSum_increment]
    omega

/-- C3: for every repetition count, after the `execute` loop each of the
three histograms (max-streak, double round-robin, no-repeat) has frequencies
summing to exactly the number of repetitions: each repetition records exactly
one occurrence into each histogram. -/
theorem executeHists_sum_eq_repetitions (NTEAMS NROUNDS : Nat) (MAXSTREAK : Int)
    (tournaments : List Tournament) :
    histSum (executeHists NTEAMS NROUNDS MAXSTREAK tournaments).1 = tournaments.length ∧
      histSum (executeHists NTEAMS NROUNDS MAXSTREAK tournaments).2.1 = tournaments.length ∧
      histSum (executeHists NTEAMS NROUNDS MAXSTREAK tournaments).2.2 = tournaments.length := by
  have h := executeHists_foldl_histSum NTEAMS NROUNDS MAXSTREAK tournaments ([], [], [])
  simpa [executeHists, histSum] using h

/-! ### Fixtures (C4, C5, C6) -/

/-- The hand-built 4-team tournament of the spec:
rounds `[(0,1),(2,3)], [(1,0),(3,2)], [(0,2),(1,3)], [(2,0),(3,1)],
[(0,3),(2,1)], [(3,0),(1,2)]`. -/
def fixtureTournament : Tournament :=
  [[(0, 1), (2, 3)], [(1, 0), (3, 2)], [(0, 2), (1, 3)],
   [(2, 0), (3, 1)], [(0, 3), (2, 1)], [(3, 0), (1, 2)]]

/-- The fixture with a copy of round 0 inserted at index 1 (duplicated
immediately after itself). -/
def mutatedTournament : Tournament :=
  fixtureTournament.insertIdx 1 [(0, 1), (2, 3)]

/-- C4 counterexample: on the hand-built 4-team fixture with streak threshold
3, the three counters do not return `(0, 0, 0)`: round 1 replays every game
of round 0 with the orientations reversed, and `countNoRepeatViolations`
counts reversed-orientation rematches. -/
theorem fixture_counters_counterexample :
    ¬ ((countMaxStreakViolations 3 fixtureTournament,
        countDoubleRoundRobinViolations 4 fixtureTournament,
        countNoRepeatViolations 6 fixtureTournament) = (0, 0, 0)) := by
  decide

/-- C4 (amended): on the hand-built 4-team fixture with streak threshold 3,
the max-streak and double round-robin counters return 0, and the no-repeat
counter returns 6 (each of the three reversed-orientation adjacent round
pairs contributes 2). -/
theorem fixture_counters_values :
    (countMaxStreakViolations 3 fixtureTournament,
      countDoubleRoundRobinViolations 4 fixtureTournament,
      countNoRepeatViolations 6 fixtureTournament) = (0, 0, 6) := by
  decide

/-- C5 counterexample: inserting a copy of round 0 at index 1 of the fixture
does not increase `countNoRepeatViolations` by 2: the counter iterates over
`range(1, NROUNDS)` with `NROUNDS = 6` fixed by the configuration, so on the
7-round mutated sequence the last adjacent pair (which contributed 2) falls
outside the scanned window and the total is unchanged. -/
theorem mutation_noRepeat_counterexample :
    ¬ (countNoRepeatViolations 6 mutatedTournament
        = countNoRepeatViolations 6 fixtureTournament + 2) := by
  decide

/-- C5 (amended): with the configuration's round count `NROUNDS = 6`, the
no-repeat count of the mutated 7-round sequence equals the count of the
unmodified sequence: both are 6.  The inserted duplicate contributes 2 at the
new adjacent pair, but the former last adjacent pair, also worth 2, is pushed
past the scanned window `range(1, 6)`. -/
theorem mutation_noRepeat_unchanged :
    countNoRepeatViolations 6 mutatedTournament = 6 ∧
      countNoRepeatViolations 6 fixtureTournament = 6 := by
  decide

/-- A valid 2-team tournament used to exercise the experiment loop. -/
def miniTournament : Tournament := [[(0, 1)], [(1, 0)]]

/-- C6 counterexample: a configuration with streak threshold `-1 < 0` is not
rejected: `__init__` and `execute` perform no validation, the loop runs and
the histograms receive entries (here one repetition records into all three
histograms, so the result is not the empty triple). -/
theorem config_validation_counterexample :
    ((-1 : Int) < 0) ∧ executeHists 2 2 (-1) [miniTournament] ≠ ([], [], []) := by
  decide

/-- C6 (amended): the code performs no configuration validation.  A negative
streak threshold is processed exactly like a valid one: every repetition
completes and records one entry into each of the three histograms, so each
histogram sums to the repetition count (and a non-positive repetition count
yields empty histograms only because the loop body never runs, not because
the configuration was rejected). -/
theorem negative_threshold_runs (MAXSTREAK : Int) (hneg : MAXSTREAK < 0)
    (NTEAMS NROUNDS : Nat) (tournaments : List Tournament) :
    histSum (executeHists NTEAMS NROUNDS MAXSTREAK tournaments).1 = tournaments.length ∧
      histSum (executeHists NTEAMS NROUNDS MAXSTREAK tournaments).2.1 = tournaments.length ∧
      histSum (executeHists NTEAMS NROUNDS MAXSTREAK tournaments).2.2 = tournaments.length := by
  have h := executeHists_foldl_histSum NTEAMS NROUNDS MAXSTREAK tournaments ([], [], [])
  simpa [executeHists, histSum] using h

/-- C6 witness: the amended no-validation statement at threshold `-1` with
one repetition on a 2-team tournament. -/
theorem negative_threshold_runs_witness :
    ((-1 : Int) < 0) ∧
      (histSum (executeHists 2 2 (-1) [miniTournament]).1 = [miniTournament].length ∧
        histSum (executeHists 2 2 (-1) [miniTournament]).2.1 = [miniTournament].length ∧
        histSum (executeHists 2 2 (-1) [miniTournament]).2.2 = [miniTournament].length) :=
  ⟨by decide, negative_threshold_runs (-1) (by decide) 2 2 [miniTournament]⟩

/-! ### Generated rounds are perfect matchings (C2) -/

/-- Number of appearances of team `t` in a round, as host or as guest. -/
def teamOccurrences (t : Nat) (round : Round) : Nat :=
  (round.map (fun g => (if g.1 = t then 1 else 0) + (if g.2 = t then 1 else 0))).sum

/-- A round is a perfect matching over `[0, NTEAMS)`: `NTEAMS / 2` games,
every game a valid host≠guest pair, every team appearing exactly once. -/
def isPerfectMatching (NTEAMS : Nat) (round : Round) : Prop :=
  round.length = NTEAMS / 2 ∧
    (∀ g ∈ round, g.1 < NTEAMS ∧ g.2 < NTEAMS ∧ g.1 ≠ g.2) ∧
    ∀ t < NTEAMS, teamOccurrences t round = 1

instance (NTEAMS : Nat) (round : Round) : Decidable (isPerfectMatching NTEAMS round) := by
  unfold isPerfectMatching
  infer_instance

lemma batched2_length : ∀ l : List Nat, (batched2 l).length = l.length / 2
  | [] => rfl
  | [_] => by simp [batched2]
  | a :: b :: rest => by
    simp only [batched2, List.length_cons, batched2_length rest]
    omega

lemma batched2_mem : ∀ l : List Nat, l.Nodup → ∀ p ∈ batched2 l,
    p.1 ∈ l ∧ p.2 ∈ l ∧ p.1 ≠ p.2
  | [], _, p, hp => by simp [batched2] at hp
  | [_], _, p, hp => by simp [batched2] at hp
  | a :: b :: rest, hnd, p, hp => by
    obtain ⟨ha, hnd1⟩ := List.nodup_cons.mp hnd
    obtain ⟨hb, hnd2⟩ := List.nodup_cons.mp hnd1
    simp only [batched2, List.mem_cons] at hp
    rcases hp with rfl | hp
    · refine ⟨List.mem_cons_self a _, List.mem_cons_of_mem _ (List.mem_cons_self b _), ?_⟩
      show a ≠ b
      intro h
      exact ha (by rw [h]; exact List.mem_cons_self b rest)
    · obtain ⟨h1, h2, h3⟩ := batched2_mem rest hnd2 p hp
      exact ⟨List.mem_cons_of_mem _ (List.mem_cons_of_mem _ h1),
        List.mem_cons_of_mem _ (List.mem_cons_of_mem _ h2), h3⟩

lemma teamOccurrences_batched2 : ∀ l : List Nat, Even l.length →
    ∀ t, teamOccurrences t (batched2 l) = l.count t
  | [], _, t => by simp [batched2, teamOccurrences]
  | [_], h, t => by simp at h
  | a :: b :: rest, h, t => by
    have hrest : Even rest.length := by
      obtain ⟨k, hk⟩ := h
      simp only [List.length_cons] at hk
      exact ⟨k - 1, by omega⟩
    have ih := teamOccurrences_batched2 rest hrest t
    simp only [teamOccurrences, batched2, List.map_cons, List.sum_cons] at ih ⊢
    rw [ih]
    by_cases h1 : a = t <;> by_cases h2 : b = t <;>
      simp [List.count_cons, h1, h2] <;> omega

lemma roundGames_perm (NTEAMS : Nat) (perm : List Nat) (h2 : 2 ≤ NTEAMS)
    (hvalid : ∀ p ∈ batched2 perm, p.1 < NTEAMS ∧ p.2 < NTEAMS ∧ p.1 ≠ p.2) :
    (roundGames NTEAMS perm).Perm (batched2 perm) := by
  unfold roundGames randomRound
  have hsort := List.perm_insertionSort (· ≤ ·)
      ((batched2 perm).map (fun t => teamIdsToGameId NTEAMS t.1 t.2))
  have h1 := hsort.map (gameIdToTeamIds NTEAMS)
  rw [List.map_map] at h1
  have hfix : (batched2 perm).map
      (gameIdToTeamIds NTEAMS ∘ fun t => teamIdsToGameId NTEAMS t.1 t.2) = batched2 perm := by
    have hpt : ∀ p ∈ batched2 perm,
        (gameIdToTeamIds NTEAMS ∘ fun t => teamIdsToGameId NTEAMS t.1 t.2) p = id p := by
      intro p hp
      obtain ⟨hp1, hp2, hp3⟩ := hvalid p hp
      simp only [Function.comp, id]
      rw [gameIdToTeamIds_teamIdsToGameId NTEAMS p.1 p.2 h2 hp1 hp2 hp3]
    rw [List.map_congr_left hpt, List.map_id]
  rw [hfix] at h1
  exact h1

/-- C2: for every even team count and every permutation of the team
identifiers drawn by the shuffle, the decoded round produced by
`randomRound` has exactly `NTEAMS / 2` games and every team in
`[0, NTEAMS)` appears in exactly one game, as host or as guest. -/
theorem roundGames_perfect_matching (NTEAMS : Nat) (perm : List Nat) (h2 : 2 ≤ NTEAMS)
    (hEven : Even NTEAMS) (hperm : perm.Perm (List.range NTEAMS)) :
    (roundGames NTEAMS perm).length = NTEAMS / 2 ∧
      ∀ t < NTEAMS, teamOccurrences t (roundGames NTEAMS perm) = 1 := by
  have hlen : perm.length = NTEAMS := by rw [hperm.length_eq, List.length_range]
  have hnd : perm.Nodup := hperm.nodup_iff.mpr (List.nodup_range NTEAMS)
  have hmem : ∀ x ∈ perm, x < NTEAMS := by
    intro x hx
    simpa [List.mem_range] using hperm.mem_iff.mp hx
  have hvalid : ∀ p ∈ batched2 perm, p.1 < NTEAMS ∧ p.2 < NTEAMS ∧ p.1 ≠ p.2 := by
    intro p hp
    obtain ⟨h1, hmem2, h3⟩ := batched2_mem perm hnd p hp
    exact ⟨hmem _ h1, hmem _ hmem2, h3⟩
  have hpg := roundGames_perm NTEAMS perm h2 hvalid
  constructor
  · rw [hpg.length_eq, batched2_length, hlen]
  · intro t ht
    have hocc : teamOccurrences t (roundGames NTEAMS perm)
        = teamOccurrences t (batched2 perm) := by
      unfold teamOccurrences
      exact (hpg.map _).sum_eq
    rw [hocc, teamOccurrences_batched2 perm (by rw [hlen]; exact hEven) t]
    exact List.count_eq_one_of_mem hnd (hperm.mem_iff.mpr (List.mem_range.mpr ht))

/-- C2 witness: the perfect-matching theorem at team count 4 with the
concrete shuffle `[1, 0, 3, 2]`. -/
theorem roundGames_perfect_matching_witness :
    (2 ≤ 4 ∧ Even 4 ∧ [1, 0, 3, 2].Perm (List.range 4)) ∧
      ((roundGames 4 [1, 0, 3, 2]).length = 4 / 2 ∧
        ∀ t < 4, teamOccurrences t (roundGames 4 [1, 0, 3, 2]) = 1) :=
  ⟨⟨by decide, by decide, perm1032⟩,
    roundGames_perfect_matching 4 [1, 0, 3, 2] (by decide) (by decide) perm1032⟩

/-! ### Aggregate reduction (C7) -/

/-- One completed experiment as collected by source `main`: its
configuration keys and its three final histograms. -/
structure ExpResult where
  MAXSTREAK : Int
  NTEAMS : Nat
  maxStreakViolations : Hist
  noRepeatViolations : Hist
  doubleRoundRobinViolations : Hist
deriving DecidableEq

/-- The aggregate key of an experiment.  The Python keys are the strings
`"maxStreak={}"` and `"teams={}"`; their formatting is injective in the
numbers, so the pair of numbers represents the nested key directly. -/
def resultKey (e : ExpResult) : Int × Nat :=
  (e.MAXSTREAK, e.NTEAMS)

/-- The value stored for one experiment in the aggregate. -/
def resultPayload (e : ExpResult) : Hist × Hist × Hist :=
  (e.maxStreakViolations, e.noRepeatViolations, e.doubleRoundRobinViolations)

/-- One iteration of the reduction loop of source `main`: store the
experiment's histograms under its key, overwriting any earlier entry. -/
def aggregateStep (allResults : Int × Nat → Option (Hist × Hist × Hist)) (e : ExpResult) :
    Int × Nat → Option (Hist × Hist × Hist) :=
  Function.update allResults (resultKey e) (some (resultPayload e))

/-- The reduction loop of source `main`: fold the completed experiments into
the aggregate mapping, starting from the empty mapping. -/
def aggregateResults (exps : List ExpResult) : Int × Nat → Option (Hist × Hist × Hist) :=
  exps.foldl aggregateStep (fun _ => none)

lemma aggregateFold_apply_of_no_key :
    ∀ (l : List ExpResult) (acc : Int × Nat → Option (Hist × Hist × Hist)) (p : Int × Nat),
      (∀ e ∈ l, resultKey e ≠ p) → l.foldl aggregateStep acc p = acc p := by
  intro l
  induction l with
  | nil => intro acc p _; rfl
  | cons x tl ih =>
    intro acc p hne
    simp only [List.foldl_cons]
    rw [ih _ _ (fun e he => hne e (List.mem_cons_of_mem _ he))]
    exact Function.update_noteq (fun h => hne x (List.mem_cons_self x tl) h.symm) _ _

lemma aggregateFold_apply_of_mem :
    ∀ (l : List ExpResult) (acc : Int × Nat → Option (Hist × Hist × Hist)) (e : ExpResult),
      (l.map resultKey).Nodup → e ∈ l →
      l.foldl aggregateStep acc (resultKey e) = some (resultPayload e) := by
  intro l
  induction l with
  | nil => intro acc e _ he; cases he
  | cons x tl ih =>
    intro acc e hnd he
    simp only [List.map_cons, List.nodup_cons] at hnd
    obtain ⟨hx, hnd'⟩ := hnd
    simp only [List.foldl_cons]
    rcases List.mem_cons.mp he with rfl | he'
    · rw [aggregateFold_apply_of_no_key tl _ _ ?side]
      case side =>
        intro e' he' heq
        exact hx (by rw [← heq]; exact List.mem_map_of_mem resultKey he')
      exact Function.update_same _ _ _
    · exact ih _ e hnd' he'

/-- C7: folding a list of completed experiment results into the aggregate is
order-independent: for every list whose aggregate keys are pairwise distinct
(as the driver's configuration grid guarantees, one slot per configuration)
and every permutation of it, the reduction yields the same aggregate
mapping. -/
theorem aggregateResults_order_independent (l₁ l₂ : List ExpResult)
    (hperm : l₁.Perm l₂) (hnd : (l₁.map resultKey).Nodup) :
    aggregateResults l₁ = aggregateResults l₂ := by
  have hnd₂ : (l₂.map resultKey).Nodup := ((hperm.map resultKey).nodup_iff).mp hnd
  funext p
  by_cases hex : ∃ e ∈ l₁, resultKey e = p
  · obtain ⟨e, he, hkey⟩ := hex
    have h1 : aggregateResults l₁ p = some (resultPayload e) := by
      rw [← hkey]
      exact aggregateFold_apply_of_mem l₁ _ e hnd he
    have h2 : aggregateResults l₂ p = some (resultPayload e) := by
      rw [← hkey]
      exact aggregateFold_apply_of_mem l₂ _ e hnd₂ (hperm.mem_iff.mp he)
    rw [h1, h2]
  · push_neg at hex
    have h1 : aggregateResults l₁ p = none := aggregateFold_apply_of_no_key l₁ _ p hex
    have h2 : aggregateResults l₂ p = none :=
      aggregateFold_apply_of_no_key l₂ _ p (fun e he => hex e (hperm.mem_iff.mpr he))
    rw [h1, h2]

/-- A completed experiment with configuration (maxStreak 1, 4 teams). -/
def expA : ExpResult := ⟨1, 4, [(0, 2)], [(1, 2)], [(2, 2)]⟩

/-- A completed experiment with configuration (maxStreak 2, 6 teams). -/
def expB : ExpResult := ⟨2, 6, [(3, 5)], [(4, 5)], [(5, 5)]⟩

/-- C7 witness: two concrete experiment results folded in the two possible
orders yield the same aggregate. -/
theorem aggregateResults_order_independent_witness :
    ([expA, expB].Perm [expB, expA] ∧ ([expA, expB].map resultKey).Nodup) ∧
      aggregateResults [expA, expB] = aggregateResults [expB, expA] :=
  ⟨⟨List.Perm.swap expB expA [], by decide⟩,
    aggregateResults_order_independent [expA, expB] [expB, expA]
      (List.Perm.swap expB expA []) (by decide)⟩

/-! ### Parity of the double round-robin deviation (C9) -/

lemma indicator_double_sum (NTEAMS a b : Nat) :
    (∑ host ∈ Finset.range NTEAMS, ∑ guest ∈ Finset.Ico (host + 1) NTEAMS,
        (if host = a ∧ guest = b then (1 : Nat) else 0))
      = if a < NTEAMS ∧ a + 1 ≤ b ∧ b < NTEAMS then 1 else 0 := by
  calc (∑ host ∈ Finset.range NTEAMS, ∑ guest ∈ Finset.Ico (host + 1) NTEAMS,
          (if host = a ∧ guest = b then (1 : Nat) else 0))
      = ∑ host ∈ Finset.range NTEAMS,
          (if host = a then
            ∑ guest ∈ Finset.Ico (host + 1) NTEAMS, (if guest = b then (1 : Nat) else 0)
          else 0) := by
        refine Finset.sum_congr rfl (fun host _ => ?_)
        by_cases hha : host = a
        · simp [hha]
        · simp [hha]
    _ = if a ∈ Finset.range NTEAMS then
          ∑ guest ∈ Finset.Ico (a + 1) NTEAMS, (if guest = b then (1 : Nat) else 0)
        else 0 :=
        Finset.sum_ite_eq' (Finset.range NTEAMS) a _
    _ = if a < NTEAMS ∧ a + 1 ≤ b ∧ b < NTEAMS then 1 else 0 := by
        rw [Finset.sum_ite_eq' (Finset.Ico (a + 1) NTEAMS) b (fun _ => (1 : Nat))]
        simp only [Finset.mem_range, Finset.mem_Ico]
        by_cases h1 : a < NTEAMS <;> by_cases h2 : a + 1 ≤ b ∧ b < NTEAMS <;>
          simp [h1, h2] <;> omega

lemma pair_indicator_sum (NTEAMS : Nat) (x : Game) (hx1 : x.1 < NTEAMS)
    (hx2 : x.2 < NTEAMS) (hxne : x.1 ≠ x.2) :
    (∑ host ∈ Finset.range NTEAMS, ∑ guest ∈ Finset.Ico (host + 1) NTEAMS,
        ((if ((host, guest) : Game) = x then (1 : Nat) else 0) +
          (if ((guest, host) : Game) = x then (1 : Nat) else 0))) = 1 := by
  obtain ⟨a, b⟩ := x
  simp only at hx1 hx2 hxne
  have hsplit : (∑ host ∈ Finset.range NTEAMS, ∑ guest ∈ Finset.Ico (host + 1) NTEAMS,
        ((if ((host, guest) : Game) = (a, b) then (1 : Nat) else 0) +
          (if ((guest, host) : Game) = (a, b) then (1 : Nat) else 0)))
      = (∑ host ∈ Finset.range NTEAMS, ∑ guest ∈ Finset.Ico (host + 1) NTEAMS,
          (if host = a ∧ guest = b then (1 : Nat) else 0)) +
        (∑ host ∈ Finset.range NTEAMS, ∑ guest ∈ Finset.Ico (host + 1) NTEAMS,
          (if host = b ∧ guest = a then (1 : Nat) else 0)) := by
    rw [← Finset.sum_add_distrib]
    refine Finset.sum_congr rfl (fun host _ => ?_)
    rw [← Finset.sum_add_distrib]
    refine Finset.sum_congr rfl (fun guest _ => ?_)
    simp only [Prod.mk.injEq]
    by_cases h1 : host = a <;> by_cases h2 : guest = b <;>
      by_cases h3 : guest = a <;> by_cases h4 : host = b <;>
      simp [h1, h2, h3, h4, hxne, hxne.symm]
  rw [hsplit, indicator_double_sum, indicator_double_sum]
  rcases Nat.lt_or_ge a b with hab | hab
  · rw [if_pos (by omega), if_neg (by omega)]
  · rw [if_neg (by omega), if_pos (by omega)]

lemma sum_counts_eq_length (NTEAMS : Nat) :
    ∀ l : List Game, (∀ g ∈ l, g.1 < NTEAMS ∧ g.2 < NTEAMS ∧ g.1 ≠ g.2) →
      (∑ host ∈ Finset.range NTEAMS, ∑ guest ∈ Finset.Ico (host + 1) NTEAMS,
        (l.count (host, guest) + l.count (guest, host))) = l.length := by
  intro l
  induction l with
  | nil => intro _; simp
  | cons x tl ih =>
    intro hvalid
    obtain ⟨hx1, hx2, hxne⟩ := hvalid x (List.mem_cons_self x tl)
    have htl := ih (fun g hg => hvalid g (List.mem_cons_of_mem _ hg))
    have hcc : ∀ p : Game, (x :: tl).count p = tl.count p + if p = x then 1 else 0 := by
      intro p
      rw [List.count_cons]
      by_cases hpx : p = x
      · simp [hpx]
      · simp [hpx, Ne.symm hpx]
    have hstep : (∑ host ∈ Finset.range NTEAMS, ∑ guest ∈ Finset.Ico (host + 1) NTEAMS,
          ((x :: tl).count (host, guest) + (x :: tl).count (guest, host)))
        = (∑ host ∈ Finset.range NTEAMS, ∑ guest ∈ Finset.Ico (host + 1) NTEAMS,
            (tl.count (host, guest) + tl.count (guest, host))) +
          (∑ host ∈ Finset.range NTEAMS, ∑ guest ∈ Finset.Ico (host + 1) NTEAMS,
            ((if ((host, guest) : Game) = x then (1 : Nat) else 0) +
              (if ((guest, host) : Game) = x then (1 : Nat) else 0))) := by
      rw [← Finset.sum_add_distrib]
      refine Finset.sum_congr rfl (fun host _ => ?_)
      rw [← Finset.sum_add_distrib]
      refine Finset.sum_congr rfl (fun guest _ => ?_)
      rw [hcc, hcc]
      omega
    rw [hstep, htl, pair_indicator_sum NTEAMS x hx1 hx2 hxne, List.length_cons]

lemma sum_map_length_const {α : Type} :
    ∀ (L : List (List α)) (k : Nat), (∀ r ∈ L, r.length = k) →
      (L.map List.length).sum = L.length * k := by
  intro L
  induction L with
  | nil => intro k _; simp
  | cons r tl ih =>
    intro k hk
    have hr : r.length = k := hk r (List.mem_cons_self r tl)
    have htl := ih k (fun r' hr' => hk r' (List.mem_cons_of_mem _ hr'))
    simp only [List.map_cons, List.sum_cons, List.length_cons, hr, htl]
    ring

/-- C9: for every even team count `NTEAMS ≥ 2` and every tournament of
exactly `2·(NTEAMS−1)` rounds in which each round is a perfect matching,
`countDoubleRoundRobinViolations` is even: the total number of directed
games equals the number of directed pairs, so the positive and negative
deviations from multiplicity 1 cancel modulo 2. -/
theorem countDoubleRoundRobinViolations_even (NTEAMS : Nat) (tournament : Tournament)
    (h2 : 2 ≤ NTEAMS) (hEven : Even NTEAMS)
    (hlen : tournament.length = 2 * (NTEAMS - 1))
    (hm : ∀ r ∈ tournament, isPerfectMatching NTEAMS r) :
    Even (countDoubleRoundRobinViolations NTEAMS tournament) := by
  have hvalid : ∀ g ∈ flatten tournament, g.1 < NTEAMS ∧ g.2 < NTEAMS ∧ g.1 ≠ g.2 := by
    intro g hg
    obtain ⟨r, hr, hgr⟩ := List.mem_flatten.mp hg
    exact (hm r hr).2.1 g hgr
  have hlength : (flatten tournament).length = 2 * (NTEAMS - 1) * (NTEAMS / 2) := by
    unfold flatten
    rw [List.length_flatten,
      sum_map_length_const tournament (NTEAMS / 2) (fun r hr => (hm r hr).1), hlen]
  have heven_len : (flatten tournament).length % 2 = 0 := by
    rw [hlength]
    have h22 : 2 * (NTEAMS - 1) * (NTEAMS / 2) = 2 * ((NTEAMS - 1) * (NTEAMS / 2)) := by
      ring
    rw [h22]
    omega
  have hcounts := sum_counts_eq_length NTEAMS (flatten tournament) hvalid
  simp only [countDoubleRoundRobinViolations]
  rw [Nat.even_iff]
  have hinner : ∀ host : Nat,
      (∑ guest ∈ Finset.Ico (host + 1) NTEAMS,
          ((1 - ((flatten tournament).count (host, guest) : Int)).natAbs +
            (1 - ((flatten tournament).count (guest, host) : Int)).natAbs)) % 2
        = (∑ guest ∈ Finset.Ico (host + 1) NTEAMS,
            ((flatten tournament).count (host, guest) +
              (flatten tournament).count (guest, host))) % 2 := by
    intro host
    rw [Finset.sum_nat_mod]
    conv_rhs => rw [Finset.sum_nat_mod]
    congr 1
    refine Finset.sum_congr rfl (fun guest _ => ?_)
    omega
  have houter : (∑ host ∈ Finset.range NTEAMS, ∑ guest ∈ Finset.Ico (host + 1) NTEAMS,
        ((1 - ((flatten tournament).count (host, guest) : Int)).natAbs +
          (1 - ((flatten tournament).count (guest, host) : Int)).natAbs)) % 2
      = (∑ host ∈ Finset.range NTEAMS, ∑ guest ∈ Finset.Ico (host + 1) NTEAMS,
          ((flatten tournament).count (host, guest) +
            (flatten tournament).count (guest, host))) % 2 := by
    rw [Finset.sum_nat_mod]
    conv_rhs => rw [Finset.sum_nat_mod]
    congr 1
    exact Finset.sum_congr rfl (fun host _ => hinner host)
  rw [houter, hcounts]
  exact heven_len

/-- C9 witness: the parity theorem on the hand-built 4-team fixture, whose
six rounds are all perfect matchings. -/
theorem countDoubleRoundRobinViolations_even_witness :
    (2 ≤ 4 ∧ Even 4 ∧ fixtureTournament.length = 2 * (4 - 1) ∧
        ∀ r ∈ fixtureTournament, isPerfectMatching 4 r) ∧
      Even (countDoubleRoundRobinViolations 4 fixtureTournament) :=
  ⟨⟨by decide, by decide, by decide, by decide⟩,
    countDoubleRoundRobinViolations_even 4 fixtureTournament (by decide) (by decide)
      (by decide) (by decide)⟩

end TTP
